import Mathlib

/-!
Verification of the safe-haven research scripts (hedge-dashboard repository).

The development embeds the numerical core of the scripts over the rationals:
the historical-bootstrap Monte Carlo simulator (bitcoinSim in
safe-heaven.py, sp500Sim in safe-heaven-spy.py), the quantile-path
extractor (getQuantilePath), the pandas categorizer (pd.cut), and the
efficient-price screening filter (calcEfficientPrice).  Randomness is made
explicit: the matrix of drawn observation indices (numpy's sims array) is
an input, and the module-level global random stream is modelled as a list
of pre-drawn indices.  Fallible numpy lookups (fancy indexing that raises
on an out-of-range index) are modelled with Option.
-/

/-- A categorized historical observation: one period's realized return and
its return-category index (one row of the df_agg table: the
annual_returns and category columns). -/
structure Obs where
  ret : ℚ
  cat : ℕ
deriving DecidableEq

/-- Option-valued map over a list.  Models a vectorized numpy operation
that succeeds on every element or raises on any out-of-range lookup. -/
def mapO {α β : Type} (f : α → Option β) : List α → Option (List β)
  | [] => some []
  | x :: xs =>
    match f x, mapO f xs with
    | some y, some ys => some (y :: ys)
    | _, _ => none

/-- Running cumulative product with an accumulator (np.cumprod along a row). -/
def cumprodAux (acc : ℚ) : List ℚ → List ℚ
  | [] => []
  | x :: xs => (acc * x) :: cumprodAux (acc * x) xs

/-- np.cumprod of one row. -/
def cumprod (l : List ℚ) : List ℚ := cumprodAux 1 l

/-- One period's combined growth factor in bitcoinSim:
risk_rets = (1 - allocation) * (data.annual_returns.values[sims] + 1) and
safe_haven_rets = allocation * payoffs[ret_cats], summed.  The draw d is a
positional index into the pool; none models numpy raising on an
out-of-range pool index or category index. -/
def periodFactor (pool : List Obs) (allocation : ℚ) (payoffs : List ℚ)
    (d : ℕ) : Option ℚ :=
  (pool.get? d).bind fun o =>
    (payoffs.get? o.cat).map fun p =>
      (1 - allocation) * (o.ret + 1) + allocation * p

/-- bitcoinSim (safe-heaven.py, lines 95-117) with the randomness made
explicit: sims is the matrix of drawn observation indices
(np.random.choice(available_indices, size=(samples, years))); the result
is the row-wise cumulative product of the combined period factors. -/
def bitcoinSim (pool : List Obs) (allocation : ℚ) (payoffs : List ℚ)
    (sims : List (List ℕ)) : Option (List (List ℚ)) :=
  mapO (fun row => (mapO (periodFactor pool allocation payoffs) row).map cumprod) sims

/-- One period's combined factor in sp500Sim (safe-heaven-spy.py): the draw
d is a position into the DataFrame's index array idx
(np.random.choice(data.index, ...)); the drawn index VALUE idx[d] is then
used as a positional lookup into the value arrays. -/
def spPeriodFactor (pool : List Obs) (idx : List ℕ) (allocation : ℚ)
    (payoffs : List ℚ) (d : ℕ) : Option ℚ :=
  (idx.get? d).bind fun v =>
    (pool.get? v).bind fun o =>
      (payoffs.get? o.cat).map fun p =>
        (1 - allocation) * (o.ret + 1) + allocation * p

/-- sp500Sim (safe-heaven-spy.py, lines 14-22) with explicit draws: sims
holds the positions at which np.random.choice picked values out of
data.index. -/
def sp500Sim (pool : List Obs) (idx : List ℕ) (allocation : ℚ)
    (payoffs : List ℚ) (sims : List (List ℕ)) : Option (List (List ℚ)) :=
  mapO (fun row => (mapO (spPeriodFactor pool idx allocation payoffs) row).map cumprod) sims

/-- Total lookup of the pool used to state theorems about successful runs. -/
def obsAt (pool : List Obs) (d : ℕ) : Obs := pool.getD d ⟨0, 0⟩

/-- np.argmin: index of the first minimal element of the list. -/
def argminIdx : List ℚ → ℕ
  | [] => 0
  | x :: xs =>
    match xs with
    | [] => 0
    | _ :: _ =>
      let j := argminIdx xs
      if xs.getD j 0 < x then j + 1 else 0

/-- np.quantile with the default linear interpolation: sort the data,
set h = q * (n - 1), and interpolate between the floor and ceiling order
statistics. -/
def npQuantile (l : List ℚ) (q : ℚ) : ℚ :=
  let s := List.insertionSort (fun a b : ℚ => a ≤ b) l
  let n := l.length
  let h := q * ((n : ℚ) - 1)
  let i := (⌊h⌋).toNat
  let g := h - (i : ℚ)
  let lo := s.getD i 0
  let hi := s.getD (min (i + 1) (n - 1)) 0
  lo + g * (hi - lo)

/-- getQuantilePath (safe-heaven.py, lines 90-93): the empirical quantile of
the terminal column trajectories[:, -1] and the actual row whose terminal
value minimizes the absolute difference to it (np.argmin returns the first
minimizer).  none models the numpy exception on an empty matrix or on a
quantile outside [0, 1]. -/
def getQuantilePath (traj : List (List ℚ)) (q : ℚ) : Option (ℚ × List ℚ) :=
  let col := traj.filterMap (fun row => row.getLast?)
  if 0 < traj.length ∧ col.length = traj.length ∧ 0 ≤ q ∧ q ≤ 1 then
    let quantile := npQuantile col q
    let dists := col.map (fun x => |quantile - x|)
    some (quantile, traj.getD (argminIdx dists) [])
  else
    none

/-- Worker for pd.cut: with right=True (the default), bin i is the
right-closed interval (bins[i], bins[i+1]]; include_lowest additionally
closes the very first interval on the left. -/
def pdCutGo (r : ℚ) : List ℚ → Bool → ℕ → Option ℕ
  | a :: b :: rest, low, i =>
    if (a < r ∨ (low = true ∧ a ≤ r)) ∧ r ≤ b then some i
    else pdCutGo r (b :: rest) false (i + 1)
  | _, _, _ => none

/-- pd.cut(x, bins, labels=categories[, include_lowest]): the integer
category index assigned to the value r, none when r falls outside every
bin (pandas NaN). -/
def pdCut (bins : List ℚ) (low : Bool) (r : ℚ) : Option ℕ :=
  pdCutGo r bins low 0

/-- calcEfficientPrice (safe-heaven-eff-price-opt.py, lines 29-35). -/
def calcEfficientPrice (K : ℚ) (target_price : ℚ) (eff : ℚ) : ℚ :=
  (K - target_price) / (1 + eff)

/-- One row of a fetched option chain: the columns the screen reads. -/
structure OptRow where
  strike : ℚ
  lastPrice : ℚ
deriving DecidableEq

/-- The screening filter (filtered_opt): keep the options whose lastPrice
is at most the efficient price of their strike. -/
def filteredOpt (target_price eff : ℚ) (chain : List OptRow) : List OptRow :=
  chain.filter (fun o => o.lastPrice ≤ calcEfficientPrice o.strike target_price eff)

/-- One call's worth of draws out of the module-level global random stream:
np.random.choice(M, size=(samples, years)) consumes samples * years entries
of the stream row-major. -/
def takeMatrix (samples years : ℕ) (stream : List ℕ) : List (List ℕ) :=
  (List.range samples).map (fun i =>
    (List.range years).map (fun t => stream.getD (i * years + t) 0))

/-- bitcoinSim as the script actually calls it: the draws come from the
hidden global numpy random stream (seeded once at module import by
np.random.seed(1234)), and the call advances the stream past the entries
it consumed. -/
def bitcoinSimGlobal (pool : List Obs) (allocation : ℚ) (payoffs : List ℚ)
    (samples years : ℕ) (stream : List ℕ) :
    Option (List (List ℚ)) × List ℕ :=
  (bitcoinSim pool allocation payoffs (takeMatrix samples years stream),
   stream.drop (samples * years))

/-! ### Helper lemmas -/

theorem mapO_length {α β : Type} {f : α → Option β} {l : List α} {l' : List β}
    (h : mapO f l = some l') : l'.length = l.length := by
  induction l generalizing l' with
  | nil => simp [mapO] at h; simp [← h]
  | cons x xs ih =>
    cases hfx : f x with
    | none => simp [mapO, hfx] at h
    | some y =>
      cases hxs : mapO f xs with
      | none => simp [mapO, hfx, hxs] at h
      | some ys =>
        simp only [mapO, hfx, hxs] at h
        cases h
        simp [ih hxs]

theorem mapO_get? {α β : Type} {f : α → Option β} {l : List α} {l' : List β}
    (h : mapO f l = some l') (i : ℕ) : l'.get? i = (l.get? i).bind f := by
  induction l generalizing l' i with
  | nil => simp [mapO] at h; subst h; simp
  | cons x xs ih =>
    cases hfx : f x with
    | none => simp [mapO, hfx] at h
    | some y =>
      cases hxs : mapO f xs with
      | none => simp [mapO, hfx, hxs] at h
      | some ys =>
        simp only [mapO, hfx, hxs] at h
        cases h
        cases i with
        | zero => simp [hfx]
        | succ n => simpa using ih hxs n

theorem mapO_isSome_iff {α β : Type} {f : α → Option β} {l : List α} :
    (mapO f l).isSome = true ↔ ∀ x ∈ l, (f x).isSome = true := by
  induction l with
  | nil => simp [mapO]
  | cons x xs ih =>
    rw [List.forall_mem_cons, ← ih]
    cases hfx : f x with
    | none => simp [mapO, hfx]
    | some y =>
      cases hxs : mapO f xs with
      | none => simp [mapO, hfx, hxs]
      | some ys => simp [mapO, hfx, hxs]

theorem mapO_congr {α β : Type} {f g : α → Option β} {l : List α}
    (h : ∀ x ∈ l, f x = g x) : mapO f l = mapO g l := by
  induction l with
  | nil => rfl
  | cons x xs ih =>
    have hx : f x = g x := h x (List.mem_cons_self x xs)
    have hxs : mapO f xs = mapO g xs :=
      ih fun z hz => h z (List.mem_cons_of_mem x hz)
    simp [mapO, hx, hxs]

theorem mapO_eq_map {α β : Type} {f : α → Option β} {g : α → β} {l : List α}
    (h : ∀ x ∈ l, f x = some (g x)) : mapO f l = some (l.map g) := by
  induction l with
  | nil => rfl
  | cons x xs ih =>
    have hx : f x = some (g x) := h x (List.mem_cons_self x xs)
    have hxs : mapO f xs = some (xs.map g) :=
      ih fun z hz => h z (List.mem_cons_of_mem x hz)
    simp [mapO, hx, hxs]

theorem cumprodAux_length (acc : ℚ) (l : List ℚ) :
    (cumprodAux acc l).length = l.length := by
  induction l generalizing acc with
  | nil => rfl
  | cons x xs ih => simp [cumprodAux, ih]

theorem cumprodAux_get? (acc : ℚ) (l : List ℚ) (t : ℕ) (ht : t < l.length) :
    (cumprodAux acc l).get? t = some (acc * (l.take (t + 1)).prod) := by
  induction l generalizing acc t with
  | nil => simp at ht
  | cons x xs ih =>
    cases t with
    | zero => simp [cumprodAux]
    | succ n =>
      simp only [List.length_cons, Nat.succ_lt_succ_iff] at ht
      simp only [cumprodAux, List.get?_cons_succ, List.take_succ_cons,
        List.prod_cons]
      rw [ih (acc * x) n ht]
      ring_nf

theorem cumprod_get? (l : List ℚ) (t : ℕ) (ht : t < l.length) :
    (cumprod l).get? t = some ((l.take (t + 1)).prod) := by
  rw [cumprod, cumprodAux_get? 1 l t ht, one_mul]

theorem cumprodAux_pos {acc : ℚ} {l : List ℚ} (hacc : 0 < acc)
    (hl : ∀ x ∈ l, 0 < x) : ∀ y ∈ cumprodAux acc l, 0 < y := by
  induction l generalizing acc with
  | nil => simp [cumprodAux]
  | cons x xs ih =>
    intro y hy
    have hx : 0 < x := hl x (List.mem_cons_self x xs)
    have hax : 0 < acc * x := mul_pos hacc hx
    simp only [cumprodAux, List.mem_cons] at hy
    cases hy with
    | inl h => exact h ▸ hax
    | inr h => exact ih hax (fun z hz => hl z (List.mem_cons_of_mem x hz)) y h

theorem argminIdx_cons_cons (x y : ℚ) (rest : List ℚ) :
    argminIdx (x :: y :: rest) =
      if (y :: rest).getD (argminIdx (y :: rest)) 0 < x
      then argminIdx (y :: rest) + 1 else 0 := rfl

theorem argminIdx_lt_length {l : List ℚ} (h : l ≠ []) :
    argminIdx l < l.length := by
  induction l with
  | nil => exact absurd rfl h
  | cons x xs ih =>
    cases xs with
    | nil => simp [argminIdx]
    | cons y rest =>
      rw [argminIdx_cons_cons]
      split
      · have := ih (by simp)
        simpa using Nat.succ_lt_succ this
      · simp

theorem argminIdx_min (l : List ℚ) (k : ℕ) (hk : k < l.length) :
    l.getD (argminIdx l) 0 ≤ l.getD k 0 := by
  induction l generalizing k with
  | nil => simp at hk
  | cons x xs ih =>
    cases xs with
    | nil =>
      cases k with
      | zero => simp [argminIdx]
      | succ n => simp at hk
    | cons y rest =>
      rw [argminIdx_cons_cons]
      split
      · rename_i hcond
        rw [List.getD_cons_succ]
        cases k with
        | zero => exact le_of_lt (by simpa using hcond)
        | succ n =>
          rw [List.getD_cons_succ]
          exact ih n (by simpa using hk)
      · rename_i hcond
        push_neg at hcond
        rw [List.getD_cons_zero]
        cases k with
        | zero => simp
        | succ n =>
          rw [List.getD_cons_succ]
          exact le_trans hcond (ih n (by simpa using hk))

theorem argminIdx_first (l : List ℚ) (k : ℕ) (hk : k < argminIdx l) :
    l.getD (argminIdx l) 0 < l.getD k 0 := by
  induction l generalizing k with
  | nil => simp [argminIdx] at hk
  | cons x xs ih =>
    cases xs with
    | nil => simp [argminIdx] at hk
    | cons y rest =>
      rw [argminIdx_cons_cons] at hk ⊢
      split at hk
      · rename_i hcond
        rw [if_pos hcond, List.getD_cons_succ]
        cases k with
        | zero => simpa using hcond
        | succ n =>
          rw [List.getD_cons_succ]
          exact ih n (Nat.lt_of_succ_lt_succ hk)
      · simp at hk

theorem getD_eq_get?_getD {α : Type} (l : List α) (n : ℕ) (d : α) :
    l.getD n d = (l.get? n).getD d := rfl

theorem periodFactor_eq {pool : List Obs} {a : ℚ} {payoffs : List ℚ} {d : ℕ}
    {c : ℚ} (h : periodFactor pool a payoffs d = some c) :
    c = (1 - a) * (1 + (obsAt pool d).ret)
        + a * payoffs.getD (obsAt pool d).cat 0 := by
  cases hp : pool.get? d with
  | none => rw [periodFactor, hp] at h; cases h
  | some o =>
    rw [periodFactor, hp, Option.some_bind] at h
    cases hq : payoffs.get? o.cat with
    | none => rw [hq] at h; cases h
    | some p =>
      rw [hq, Option.map_some'] at h
      have ho : obsAt pool d = o := by
        rw [obsAt, getD_eq_get?_getD, hp]; rfl
      have hpv : payoffs.getD o.cat 0 = p := by
        rw [getD_eq_get?_getD, hq]; rfl
      rw [ho, hpv]
      cases h
      ring

theorem periodFactor_isSome_iff {pool : List Obs} {a : ℚ} {payoffs : List ℚ}
    {d : ℕ} :
    (periodFactor pool a payoffs d).isSome = true ↔
      ((pool.get? d).bind (fun o => payoffs.get? o.cat)).isSome = true := by
  cases hp : pool.get? d with
  | none => rw [periodFactor, hp]; simp
  | some o =>
    rw [periodFactor, hp, Option.some_bind, Option.some_bind]
    cases hq : payoffs.get? o.cat with
    | none => simp
    | some p => simp

theorem periodFactor_some_of {pool : List Obs} {a : ℚ} {payoffs : List ℚ}
    {d : ℕ} {o : Obs} (hp : pool.get? d = some o)
    (hc : o.cat < payoffs.length) :
    periodFactor pool a payoffs d =
      some ((1 - a) * (1 + (obsAt pool d).ret)
        + a * payoffs.getD (obsAt pool d).cat 0) := by
  have hq : payoffs.get? o.cat = some (payoffs.get ⟨o.cat, hc⟩) :=
    List.get?_eq_get hc
  have ho : obsAt pool d = o := by rw [obsAt, getD_eq_get?_getD, hp]; rfl
  have hpv : payoffs.getD o.cat 0 = payoffs.get ⟨o.cat, hc⟩ := by
    rw [getD_eq_get?_getD, hq]; rfl
  rw [periodFactor, hp, Option.some_bind, hq, Option.map_some', ho, hpv]
  congr 1
  ring

theorem filterMap_eq_map_of_some {α β : Type} {f : α → Option β} {g : α → β}
    {l : List α} (h : ∀ x ∈ l, f x = some (g x)) : l.filterMap f = l.map g := by
  induction l with
  | nil => rfl
  | cons x xs ih =>
    rw [List.filterMap_cons, h x (List.mem_cons_self x xs), List.map_cons,
      ih fun z hz => h z (List.mem_cons_of_mem x hz)]

theorem getLast?_eq_some_getLastD {α : Type} {l : List α} (h : l ≠ []) (d : α) :
    l.getLast? = some (l.getLastD d) := by
  cases hl : l.getLast? with
  | none => exact absurd (List.getLast?_eq_none.mp hl) h
  | some y => rw [List.getLastD_eq_getLast?, hl]; rfl

theorem getD_map_of_lt {α β : Type} (f : α → β) (l : List α) (k : ℕ)
    (d : α) (d' : β) (hk : k < l.length) :
    (l.map f).getD k d' = f (l.getD k d) := by
  rw [getD_eq_get?_getD, getD_eq_get?_getD, List.get?_map, List.get?_eq_get hk]
  rfl

/-- C1: for every historical pool, allocation, payoff vector and matrix of
drawn observation indices, whenever the simulation succeeds, the trajectory
entry at (path i, period t) equals the running cumulative product, through
period t, of the combined period factors
(1 - allocation) * (1 + observed_return) + allocation * payoffs[observed_category]. -/
theorem c1_trajectory_is_cumprod_of_combined (pool : List Obs) (a : ℚ)
    (payoffs : List ℚ) (sims : List (List ℕ)) (m : List (List ℚ))
    (i t : ℕ) (row : List ℕ)
    (hm : bitcoinSim pool a payoffs sims = some m)
    (hrow : sims.get? i = some row) (ht : t < row.length) :
    ∃ mrow : List ℚ, m.get? i = some mrow ∧
      mrow.get? t = some (((row.take (t + 1)).map fun d =>
        (1 - a) * (1 + (obsAt pool d).ret)
          + a * payoffs.getD (obsAt pool d).cat 0).prod) := by
  have hget := mapO_get? hm i
  rw [hrow, Option.some_bind] at hget
  cases hfacs : mapO (periodFactor pool a payoffs) row with
  | none =>
    exfalso
    rw [hfacs, Option.map_none'] at hget
    have hlen : m.length ≤ i := List.get?_eq_none.mp hget
    have hi : i < sims.length := by
      by_contra hc
      rw [List.get?_eq_none.mpr (Nat.le_of_not_lt hc)] at hrow
      cases hrow
    rw [mapO_length hm] at hlen
    exact absurd hi (Nat.not_lt.mpr hlen)
  | some facs =>
    rw [hfacs, Option.map_some'] at hget
    have hsome : ∀ d ∈ row, (periodFactor pool a payoffs d).isSome = true :=
      mapO_isSome_iff.mp (by rw [hfacs]; rfl)
    have heach : ∀ d ∈ row, periodFactor pool a payoffs d =
        some ((1 - a) * (1 + (obsAt pool d).ret)
          + a * payoffs.getD (obsAt pool d).cat 0) := by
      intro d hd
      obtain ⟨c, hc⟩ := Option.isSome_iff_exists.mp (hsome d hd)
      rw [hc, periodFactor_eq hc]
    have hfacs' : facs = row.map fun d =>
        (1 - a) * (1 + (obsAt pool d).ret)
          + a * payoffs.getD (obsAt pool d).cat 0 := by
      have := mapO_eq_map heach
      rw [hfacs] at this
      exact Option.some.inj this
    refine ⟨cumprod facs, hget, ?_⟩
    have htf : t < facs.length := by
      rw [hfacs', List.length_map]; exact ht
    rw [cumprod_get? facs t htf, hfacs', ← List.map_take]

/-- C2: for valid inputs (non-empty pool, allocation in [0, 1], positive
years and samples, payoff vector covering every category in the pool, and
draws ranging over the pool), the simulator succeeds with a matrix of shape
exactly (samples, years), and every entry is strictly positive whenever
every combined period factor is strictly positive. -/
theorem c2_shape_and_positivity (pool : List Obs) (a : ℚ) (payoffs : List ℚ)
    (sims : List (List ℕ)) (samples years : ℕ)
    (hpool : pool ≠ []) (ha0 : 0 ≤ a) (ha1 : a ≤ 1)
    (hsamples : 0 < samples) (hyears : 0 < years)
    (hshape : sims.length = samples)
    (hrows : ∀ row ∈ sims, row.length = years)
    (hdraw : ∀ row ∈ sims, ∀ d ∈ row, d < pool.length)
    (hcat : ∀ o ∈ pool, o.cat < payoffs.length) :
    ∃ m : List (List ℚ), bitcoinSim pool a payoffs sims = some m ∧
      m.length = samples ∧ (∀ mrow ∈ m, mrow.length = years) ∧
      ((∀ row ∈ sims, ∀ d ∈ row,
          0 < (1 - a) * (1 + (obsAt pool d).ret)
            + a * payoffs.getD (obsAt pool d).cat 0) →
        ∀ mrow ∈ m, ∀ x ∈ mrow, 0 < x) := by
  have hpf : ∀ row ∈ sims, ∀ d ∈ row, periodFactor pool a payoffs d =
      some ((1 - a) * (1 + (obsAt pool d).ret)
        + a * payoffs.getD (obsAt pool d).cat 0) := by
    intro row hrow d hd
    have hdlt := hdraw row hrow d hd
    have hp : pool.get? d = some (pool.get ⟨d, hdlt⟩) := List.get?_eq_get hdlt
    exact periodFactor_some_of hp
      (hcat (pool.get ⟨d, hdlt⟩) (List.get?_mem hp))
  have hrowsim : ∀ row ∈ sims,
      (fun row => (mapO (periodFactor pool a payoffs) row).map cumprod) row =
        some (cumprod (row.map fun d =>
          (1 - a) * (1 + (obsAt pool d).ret)
            + a * payoffs.getD (obsAt pool d).cat 0)) := by
    intro row hrow
    show (mapO (periodFactor pool a payoffs) row).map cumprod = _
    rw [mapO_eq_map (hpf row hrow), Option.map_some']
  have hm : bitcoinSim pool a payoffs sims =
      some (sims.map fun row => cumprod (row.map fun d =>
        (1 - a) * (1 + (obsAt pool d).ret)
          + a * payoffs.getD (obsAt pool d).cat 0)) := by
    rw [bitcoinSim]
    exact mapO_eq_map hrowsim
  refine ⟨_, hm, ?_, ?_, ?_⟩
  · rw [List.length_map, hshape]
  · intro mrow hmrow
    obtain ⟨row, hrow, hmr⟩ := List.mem_map.mp hmrow
    rw [← hmr, cumprod, cumprodAux_length, List.length_map]
    exact hrows row hrow
  · intro hpos mrow hmrow x hx
    obtain ⟨row, hrow, hmr⟩ := List.mem_map.mp hmrow
    rw [← hmr] at hx
    refine cumprodAux_pos one_pos ?_ x hx
    intro z hz
    obtain ⟨d, hd, hdz⟩ := List.mem_map.mp hz
    rw [← hdz]
    exact hpos row hrow d hd

/-- C3: for allocation = 0, the simulator's output is independent of the
payoff vector: any two payoff vectors covering every category in the pool
give identical output for the same pool and the same sequence of draws. -/
theorem c3_allocation_zero_payoff_independence (pool : List Obs)
    (p1 p2 : List ℚ) (sims : List (List ℕ))
    (h1 : ∀ o ∈ pool, o.cat < p1.length)
    (h2 : ∀ o ∈ pool, o.cat < p2.length) :
    bitcoinSim pool 0 p1 sims = bitcoinSim pool 0 p2 sims := by
  rw [bitcoinSim, bitcoinSim]
  refine mapO_congr fun row _ => ?_
  congr 1
  refine mapO_congr fun d _ => ?_
  cases hp : pool.get? d with
  | none => rw [periodFactor, periodFactor, hp]; rfl
  | some o =>
    have ho := List.get?_mem hp
    have hq1 : p1.get? o.cat = some (p1.get ⟨o.cat, h1 o ho⟩) :=
      List.get?_eq_get (h1 o ho)
    have hq2 : p2.get? o.cat = some (p2.get ⟨o.cat, h2 o ho⟩) :=
      List.get?_eq_get (h2 o ho)
    rw [periodFactor, periodFactor, hp, Option.some_bind, Option.some_bind,
      hq1, hq2, Option.map_some', Option.map_some']
    congr 1
    ring

theorem spPeriodFactor_range (pool : List Obs) (a : ℚ) (payoffs : List ℚ)
    (d : ℕ) :
    spPeriodFactor pool (List.range pool.length) a payoffs d =
      periodFactor pool a payoffs d := by
  by_cases hd : d < pool.length
  · rw [spPeriodFactor, List.get?_range hd, Option.some_bind, periodFactor]
  · have h1 : (List.range pool.length).get? d = none := by
      rw [List.get?_eq_none, List.length_range]
      exact Nat.le_of_not_lt hd
    have h2 : pool.get? d = none := by
      rw [List.get?_eq_none]
      exact Nat.le_of_not_lt hd
    rw [spPeriodFactor, h1, periodFactor, h2]
    rfl

/-- C10: the two simulator variants compute identical trajectory matrices
for the same pool, allocation, payoffs and sequence of draws, whenever the
pool's DataFrame index is the default range 0..M-1 (in that case the index
values drawn by sp500Sim coincide with the positional indices drawn by
bitcoinSim, and both end in the same positional lookups). -/
theorem c10_sp500Sim_equals_bitcoinSim (pool : List Obs) (a : ℚ)
    (payoffs : List ℚ) (sims : List (List ℕ)) :
    sp500Sim pool (List.range pool.length) a payoffs sims =
      bitcoinSim pool a payoffs sims := by
  rw [sp500Sim, bitcoinSim]
  refine mapO_congr fun row _ => ?_
  show (mapO (spPeriodFactor pool (List.range pool.length) a payoffs) row).map
      cumprod = (mapO (periodFactor pool a payoffs) row).map cumprod
  congr 1
  exact mapO_congr fun d _ => spPeriodFactor_range pool a payoffs d

/-- C7 counterexample: the simulator performs no validation at all.  On a
pool whose second observation has category 5 (out of range for the
length-1 payoff vector) and with allocation = 2 (outside [0, 1]), the
claim demands an immediate InvalidAllocation / PayoffCategoryMismatch
failure before any draw; the code instead runs to completion and returns a
matrix, because the out-of-range observation is never drawn and the
allocation is used as-is: (1 - 2) * (0 + 1) + 2 * 2 = 3. -/
theorem c7_counterexample_no_validation :
    bitcoinSim [⟨0, 0⟩, ⟨0, 5⟩] 2 [2] [[0]] = some [[3]] := by
  with_unfolding_all decide

/-- C7 amended: the simulator validates nothing up front: it succeeds if
and only if every actually drawn index resolves to a pool observation
whose category is in range for the payoff vector; allocation, years and
samples are never checked or clamped, and an out-of-range category in the
pool is harmless when it is never drawn. -/
theorem c7_no_validation_success_iff (pool : List Obs) (a : ℚ)
    (payoffs : List ℚ) (sims : List (List ℕ)) :
    (bitcoinSim pool a payoffs sims).isSome = true ↔
      ∀ row ∈ sims, ∀ d ∈ row,
        ((pool.get? d).bind fun o => payoffs.get? o.cat).isSome = true := by
  rw [bitcoinSim, mapO_isSome_iff]
  refine forall_congr' fun row => imp_congr_right fun _ => ?_
  show ((mapO (periodFactor pool a payoffs) row).map cumprod).isSome = true ↔ _
  rw [Option.isSome_map', mapO_isSome_iff]
  exact forall_congr' fun d => imp_congr_right fun _ => periodFactor_isSome_iff

/-- C6 counterexample: the simulator does not take a seed; it draws from
the module-level global numpy stream.  With the stream holding draws
[0, 1] over a pool whose two observations have returns 0 and 1, a first
call with (allocation 0, payoffs [0], samples 1, years 1) returns [[1]]
and advances the stream, and an identical second call then returns [[2]]:
two calls with identical parameters are not bit-identical. -/
theorem c6_counterexample_two_calls_differ :
    (bitcoinSimGlobal [⟨0, 0⟩, ⟨1, 0⟩] 0 [0] 1 1 [0, 1]).1 ≠
      (bitcoinSimGlobal [⟨0, 0⟩, ⟨1, 0⟩] 0 [0] 1 1
        ((bitcoinSimGlobal [⟨0, 0⟩, ⟨1, 0⟩] 0 [0] 1 1 [0, 1]).2)).1 := by
  with_unfolding_all decide

theorem takeMatrix_congr (samples years : ℕ) (s1 s2 : List ℕ)
    (h : s1.take (samples * years) = s2.take (samples * years)) :
    takeMatrix samples years s1 = takeMatrix samples years s2 := by
  rw [takeMatrix, takeMatrix]
  refine List.map_congr_left fun i hi => ?_
  refine List.map_congr_left fun t ht => ?_
  have hi' : i < samples := List.mem_range.mp hi
  have ht' : t < years := List.mem_range.mp ht
  have hk : i * years + t < samples * years := by
    have h1 : i * years + t < i * years + years := by omega
    have h2 : i * years + years = (i + 1) * years := by ring
    have h3 : (i + 1) * years ≤ samples * years :=
      Nat.mul_le_mul_right years hi'
    omega
  have hget : s1.get? (i * years + t) = s2.get? (i * years + t) := by
    have e1 : (s1.take (samples * years)).get? (i * years + t) =
        s1.get? (i * years + t) := List.get?_take hk
    have e2 : (s2.take (samples * years)).get? (i * years + t) =
        s2.get? (i * years + t) := List.get?_take hk
    rw [← e1, ← e2, h]
  rw [getD_eq_get?_getD, getD_eq_get?_getD, hget]

/-- C6 amended: the simulator's output is a deterministic function of its
parameters and the prefix of the global random stream it consumes: two
calls whose streams agree on the first samples * years draws return
identical matrices.  Reproducibility across whole runs therefore comes
only from re-seeding the hidden global stream identically at module
import, not from a seed parameter (the simulator has none), and two calls
within one run consume different stream segments. -/
theorem c6_deterministic_in_consumed_stream (pool : List Obs) (a : ℚ)
    (payoffs : List ℚ) (samples years : ℕ) (s1 s2 : List ℕ)
    (h : s1.take (samples * years) = s2.take (samples * years)) :
    (bitcoinSimGlobal pool a payoffs samples years s1).1 =
      (bitcoinSimGlobal pool a payoffs samples years s2).1 := by
  show bitcoinSim pool a payoffs (takeMatrix samples years s1) =
    bitcoinSim pool a payoffs (takeMatrix samples years s2)
  rw [takeMatrix_congr samples years s1 s2 h]

/-- C4: for every trajectory matrix with at least one path and one period
and every q in [0, 1] (q = 0, 0.5 and 1 included, with no special-casing),
the quantile path extractor returns (a) the empirical q-quantile of the
terminal-period column and (b) an actual row of the matrix whose terminal
value has the minimum absolute difference to that quantile, the row of
smallest path index when several achieve the minimum. -/
theorem c4_quantile_path_nearest_terminal (traj : List (List ℚ)) (q : ℚ)
    (col : List ℚ) (quant : ℚ) (hq0 : 0 ≤ q) (hq1 : q ≤ 1)
    (hne : 0 < traj.length) (hrows : ∀ row ∈ traj, row ≠ [])
    (hcol : col = traj.filterMap fun row => row.getLast?)
    (hquant : quant = npQuantile col q) :
    ∃ i : ℕ, i < traj.length ∧
      getQuantilePath traj q = some (quant, traj.getD i []) ∧
      (traj.getD i []).getLast? = some (col.getD i 0) ∧
      (∀ j, j < col.length →
        |quant - col.getD i 0| ≤ |quant - col.getD j 0|) ∧
      (∀ j, j < i → |quant - col.getD i 0| < |quant - col.getD j 0|) := by
  have hmap : col = traj.map fun row => row.getLastD 0 := by
    rw [hcol]
    exact filterMap_eq_map_of_some fun row hmem =>
      getLast?_eq_some_getLastD (hrows row hmem) 0
  have hclen : col.length = traj.length := by rw [hmap, List.length_map]
  have hcond : 0 < traj.length ∧
      (traj.filterMap fun row => row.getLast?).length = traj.length ∧
      0 ≤ q ∧ q ≤ 1 := ⟨hne, by rw [← hcol]; exact hclen, hq0, hq1⟩
  set dists := col.map fun x => |quant - x| with hdists
  have hdlen : dists.length = col.length := List.length_map col _
  have hdne : dists ≠ [] := by
    refine List.ne_nil_of_length_pos ?_
    rw [hdlen, hclen]
    exact hne
  set i := argminIdx dists with hi
  have hilt : i < traj.length := by
    have := argminIdx_lt_length hdne
    rw [hdlen, hclen] at this
    exact this
  have hgq : getQuantilePath traj q = some (quant, traj.getD i []) := by
    rw [getQuantilePath, if_pos hcond, hi, hdists, hquant, hcol]
  have hdget : ∀ k, k < col.length → dists.getD k 0 = |quant - col.getD k 0| := by
    intro k hk
    rw [hdists]
    exact getD_map_of_lt (fun x => |quant - x|) col k 0 0 hk
  have hicol : i < col.length := by rw [hclen]; exact hilt
  refine ⟨i, hilt, hgq, ?_, ?_, ?_⟩
  · have hrget : traj.getD i [] = traj.get ⟨i, hilt⟩ := by
      rw [getD_eq_get?_getD, List.get?_eq_get hilt]
      rfl
    have hrmem : traj.getD i [] ∈ traj := by
      rw [hrget]
      exact List.get_mem traj i hilt
    have hterm : col.getD i 0 = (traj.getD i []).getLastD 0 := by
      rw [hmap]
      exact getD_map_of_lt (fun row => row.getLastD 0) traj i [] 0 hilt
    rw [hterm]
    exact getLast?_eq_some_getLastD (hrows _ hrmem) 0
  · intro j hj
    have h1 := argminIdx_min dists j (by rw [hdlen]; exact hj)
    rw [← hi, hdget i hicol, hdget j hj] at h1
    exact h1
  · intro j hj
    have h1 := argminIdx_first dists j (by rw [← hi]; exact hj)
    have hjcol : j < col.length := lt_trans hj hicol
    rw [← hi, hdget i hicol, hdget j hjcol] at h1
    exact h1

/-- C8: the quantile path extractor fails (returns none, modelling the
numpy exception) on every matrix with zero paths or zero periods, and
succeeds on every matrix with at least one path and one period when q is
in [0, 1]. -/
theorem c8_empty_matrix_fails_nonempty_succeeds (traj : List (List ℚ))
    (q : ℚ) (samples years : ℕ) (hshape : traj.length = samples)
    (hrows : ∀ row ∈ traj, row.length = years) :
    ((samples = 0 ∨ years = 0) → getQuantilePath traj q = none) ∧
      (0 < samples → 0 < years → 0 ≤ q → q ≤ 1 →
        (getQuantilePath traj q).isSome = true) := by
  constructor
  · rintro (h0 | h0)
    · have htnil : traj = [] := List.length_eq_zero.mp (by rw [hshape, h0])
      rw [getQuantilePath, if_neg]
      intro hcond
      rw [htnil] at hcond
      simp at hcond
    · by_cases hs : traj.length = 0
      · rw [getQuantilePath, if_neg]
        intro hcond
        rw [hs] at hcond
        simp at hcond
      · have hcnil : (traj.filterMap fun row => row.getLast?) = [] := by
          rw [List.filterMap_eq_nil_iff]
          intro row hrow
          have : row = [] := List.length_eq_zero.mp (by rw [hrows row hrow, h0])
          rw [this]
          rfl
        rw [getQuantilePath, if_neg]
        intro hcond
        rw [hcnil] at hcond
        exact hs hcond.2.1.symm
  · intro hs hy hq0 hq1
    have hne : 0 < traj.length := by rw [hshape]; exact hs
    have hrne : ∀ row ∈ traj, row ≠ [] := by
      intro row hrow hemp
      rw [hemp] at hrow
      have := hrows [] hrow
      simp at this
      omega
    have hclen : (traj.filterMap fun row => row.getLast?).length =
        traj.length := by
      rw [filterMap_eq_map_of_some fun row hmem =>
        getLast?_eq_some_getLastD (hrne row hmem) 0, List.length_map]
    rw [getQuantilePath, if_pos ⟨hne, hclen, hq0, hq1⟩]
    rfl

theorem pdCutGo_cons_cons (r a b : ℚ) (rest : List ℚ) (low : Bool) (k : ℕ) :
    pdCutGo r (a :: b :: rest) low k =
      if (a < r ∨ (low = true ∧ a ≤ r)) ∧ r ≤ b then some k
      else pdCutGo r (b :: rest) false (k + 1) := rfl

theorem pdCutGo_eq_some {r : ℚ} {bins : List ℚ} {low : Bool} {k j : ℕ}
    {a b : ℚ} (hc : List.Chain' (· < ·) bins)
    (ha : bins.get? j = some a) (hb : bins.get? (j + 1) = some b)
    (hra : a < r ∨ (low = true ∧ j = 0 ∧ a ≤ r)) (hrb : r ≤ b) :
    pdCutGo r bins low k = some (k + j) := by
  induction bins generalizing low k j with
  | nil => simp at ha
  | cons x xs ih =>
    cases xs with
    | nil =>
      cases j with
      | zero => simp at hb
      | succ n => simp at ha
    | cons y rest =>
      cases j with
      | zero =>
        rw [List.get?_cons_zero] at ha
        injection ha with ha
        subst ha
        rw [List.get?_cons_succ, List.get?_cons_zero] at hb
        injection hb with hb
        subst hb
        rw [pdCutGo_cons_cons, if_pos, Nat.add_zero]
        refine ⟨?_, hrb⟩
        cases hra with
        | inl h => exact Or.inl h
        | inr h => exact Or.inr ⟨h.1, h.2.2⟩
      | succ n =>
        rw [List.get?_cons_succ] at ha hb
        have hxa : a < r := by
          cases hra with
          | inl h => exact h
          | inr h => exact absurd h.2.1 (Nat.succ_ne_zero n)
        have hya : y ≤ a := by
          cases n with
          | zero =>
            rw [List.get?_cons_zero] at ha
            injection ha with ha
            exact le_of_eq ha
          | succ m =>
            rw [List.get?_cons_succ] at ha
            have hmem : a ∈ rest := List.get?_mem ha
            have hpw := List.chain'_iff_pairwise.mp (List.Chain'.tail hc)
            exact le_of_lt ((List.pairwise_cons.mp hpw).1 a hmem)
        have hyr : y < r := lt_of_le_of_lt hya hxa
        rw [pdCutGo_cons_cons, if_neg]
        · have htail : pdCutGo r (y :: rest) false (k + 1) = some (k + 1 + n) :=
            ih (List.Chain'.tail hc) ha hb (Or.inl hxa)
          rw [htail]
          congr 1
          omega
        · intro hcond
          exact absurd hcond.2 (not_le.mpr hyr)

/-- C5 counterexample: with the strictly increasing boundary sequence of
safe-heaven-spy.py, bins = [-10, -0.15, 0, 0.15, 0.3, 10], the return
r = 0 sits exactly on an interior boundary.  The claim's left-closed,
right-open convention would put it in the bin on its right
([0, 0.15), index 2); pd.cut with its default right=True instead assigns
the bin on its left ((-0.15, 0], index 1). -/
theorem c5_counterexample_boundary_goes_left :
    pdCut [-10, -3/20, 0, 3/20, 3/10, 10] false 0 = some 1 ∧
      pdCut [-10, -3/20, 0, 3/20, 3/10, 10] false 0 ≠ some 2 := by
  with_unfolding_all decide

/-- C5 amended: for every strictly increasing boundary sequence the
categorizer assigns r exactly one category index using the LEFT-OPEN,
RIGHT-CLOSED convention: bin j covers (edge[j], edge[j+1]] (the lowest
edge being included as well when include_lowest is set), so a return
exactly equal to an interior boundary value edge[j+1] is assigned to the
bin on its LEFT (index j). -/
theorem c5_right_closed_bin_assignment (bins : List ℚ) (low : Bool) (r : ℚ)
    (j : ℕ) (a b : ℚ) (hc : List.Chain' (· < ·) bins)
    (ha : bins.get? j = some a) (hb : bins.get? (j + 1) = some b)
    (hra : a < r ∨ (low = true ∧ j = 0 ∧ a ≤ r)) (hrb : r ≤ b) :
    pdCut bins low r = some j := by
  rw [pdCut]
  have h := pdCutGo_eq_some (k := 0) hc ha hb hra hrb
  rwa [Nat.zero_add] at h

/-- C9: calcEfficientPrice(K, target_price, eff) = (K - target_price) /
(1 + eff); for eff > -1 it is strictly increasing in the strike and
negative below the target price, so the screening filter (keep options
with lastPrice <= eff_price) never keeps an option with positive
lastPrice at a strike below target_price. -/
theorem c9_efficient_price_screen (K K1 K2 target_price eff : ℚ)
    (chain : List OptRow) (o : OptRow) (heff : -1 < eff) (hK : K1 < K2)
    (hmem : o ∈ filteredOpt target_price eff chain)
    (hpos : 0 < o.lastPrice) :
    calcEfficientPrice K target_price eff = (K - target_price) / (1 + eff) ∧
      calcEfficientPrice K1 target_price eff <
        calcEfficientPrice K2 target_price eff ∧
      (K < target_price → calcEfficientPrice K target_price eff < 0) ∧
      ¬ o.strike < target_price := by
  have h1e : (0 : ℚ) < 1 + eff := by linarith
  refine ⟨rfl, ?_, ?_, ?_⟩
  · rw [calcEfficientPrice, calcEfficientPrice]
    exact (div_lt_div_iff_of_pos_right h1e).mpr (by linarith)
  · intro hKt
    rw [calcEfficientPrice]
    exact div_neg_of_neg_of_pos (by linarith) h1e
  · intro hlt
    rw [filteredOpt] at hmem
    have hle : o.lastPrice ≤ calcEfficientPrice o.strike target_price eff := by
      simpa using (List.mem_filter.mp hmem).2
    have hneg : calcEfficientPrice o.strike target_price eff < 0 := by
      rw [calcEfficientPrice]
      exact div_neg_of_neg_of_pos (by linarith) h1e
    linarith

/-- C1 witness at a concrete input: one observation with return 1 and
category 0, allocation 1/2, payoff 3, two draws of index 0; the combined
factor is 5/2 each period and the trajectory row is [5/2, 25/4]. -/
theorem c1_witness : ∃ mrow : List ℚ,
    ([[5/2, 25/4]] : List (List ℚ)).get? 0 = some mrow ∧
    mrow.get? 1 = some (((([0, 0] : List ℕ).take 2).map fun d =>
      (1 - 1/2) * (1 + (obsAt [⟨1, 0⟩] d).ret)
        + (1/2) * ([3] : List ℚ).getD (obsAt [⟨1, 0⟩] d).cat 0).prod) :=
  c1_trajectory_is_cumprod_of_combined [⟨1, 0⟩] (1/2) [3] [[0, 0]]
    [[5/2, 25/4]] 0 1 [0, 0] (by with_unfolding_all decide) rfl
    (by decide)

/-- C2 witness at a concrete input. -/
theorem c2_witness : ∃ m : List (List ℚ),
    bitcoinSim [⟨1, 0⟩] 0 [1] [[0]] = some m ∧
    m.length = 1 ∧ (∀ mrow ∈ m, mrow.length = 1) ∧
    ((∀ row ∈ ([[0]] : List (List ℕ)), ∀ d ∈ row,
        0 < (1 - 0) * (1 + (obsAt [⟨1, 0⟩] d).ret)
          + 0 * ([1] : List ℚ).getD (obsAt [⟨1, 0⟩] d).cat 0) →
      ∀ mrow ∈ m, ∀ x ∈ mrow, 0 < x) :=
  c2_shape_and_positivity [⟨1, 0⟩] 0 [1] [[0]] 1 1
    (by with_unfolding_all decide) (by with_unfolding_all decide)
    (by with_unfolding_all decide) (by decide) (by decide) rfl
    (by decide) (by decide) (by decide)

/-- C3 witness at a concrete input. -/
theorem c3_witness :
    bitcoinSim [⟨1, 0⟩] 0 [1] [[0]] = bitcoinSim [⟨1, 0⟩] 0 [2] [[0]] :=
  c3_allocation_zero_payoff_independence [⟨1, 0⟩] [1] [2] [[0]]
    (by decide) (by decide)

/-- C4 witness at a concrete input: two one-period paths with terminal
values 1 and 2, q = 1/2; the median is 3/2 and the first path [1] is the
first of the two equally close rows. -/
theorem c4_witness : ∃ i : ℕ, i < ([[1], [2]] : List (List ℚ)).length ∧
    getQuantilePath [[1], [2]] (1/2) =
      some ((3 : ℚ)/2, ([[1], [2]] : List (List ℚ)).getD i []) ∧
    (([[1], [2]] : List (List ℚ)).getD i []).getLast? =
      some (([1, 2] : List ℚ).getD i 0) ∧
    (∀ j, j < ([1, 2] : List ℚ).length →
      |(3 : ℚ)/2 - ([1, 2] : List ℚ).getD i 0| ≤
        |(3 : ℚ)/2 - ([1, 2] : List ℚ).getD j 0|) ∧
    (∀ j, j < i →
      |(3 : ℚ)/2 - ([1, 2] : List ℚ).getD i 0| <
        |(3 : ℚ)/2 - ([1, 2] : List ℚ).getD j 0|) :=
  c4_quantile_path_nearest_terminal [[1], [2]] (1/2) [1, 2] (3/2)
    (by with_unfolding_all decide) (by with_unfolding_all decide)
    (by decide) (by with_unfolding_all decide)
    (by with_unfolding_all decide) (by with_unfolding_all decide)

/-- C5 witness at a concrete input: the spy bins and the boundary value 0
land in bin 1, i.e. the right-closed interval (-0.15, 0]. -/
theorem c5_witness :
    pdCut [-10, -3/20, 0, 3/20, 3/10, 10] false 0 = some 1 :=
  c5_right_closed_bin_assignment [-10, -3/20, 0, 3/20, 3/10, 10] false 0 1
    (-3/20) 0
    (by
      refine List.chain'_cons.mpr ⟨?_, List.chain'_cons.mpr
        ⟨?_, List.chain'_cons.mpr ⟨?_, List.chain'_cons.mpr
        ⟨?_, List.chain'_cons.mpr ⟨?_, List.chain'_singleton _⟩⟩⟩⟩⟩ <;>
        with_unfolding_all decide)
    rfl rfl (Or.inl (by with_unfolding_all decide))
    (by with_unfolding_all decide)

/-- C6 witness at a concrete input: two streams agreeing on their first
samples * years = 1 entries yield the same matrix. -/
theorem c6_witness :
    (bitcoinSimGlobal [⟨1, 0⟩] 0 [1] 1 1 [0, 5]).1 =
      (bitcoinSimGlobal [⟨1, 0⟩] 0 [1] 1 1 [0, 7]).1 :=
  c6_deterministic_in_consumed_stream [⟨1, 0⟩] 0 [1] 1 1 [0, 5] [0, 7]
    (by decide)

/-- C8 witness at a concrete input. -/
theorem c8_witness :
    ((1 = 0 ∨ 1 = 0) → getQuantilePath [[1]] 0 = none) ∧
      (0 < 1 → 0 < 1 → (0 : ℚ) ≤ 0 → (0 : ℚ) ≤ 1 →
        (getQuantilePath [[1]] 0).isSome = true) :=
  c8_empty_matrix_fails_nonempty_succeeds [[1]] 0 1 1 rfl (by decide)

/-- C9 witness at a concrete input: target price 10, efficiency 6.8 = 34/5,
and a chain holding one put at strike 12 with lastPrice 1/10, which the
screen keeps. -/
theorem c9_witness :
    calcEfficientPrice 5 10 (34/5) = (5 - 10) / (1 + 34/5) ∧
      calcEfficientPrice 1 10 (34/5) < calcEfficientPrice 2 10 (34/5) ∧
      ((5 : ℚ) < 10 → calcEfficientPrice 5 10 (34/5) < 0) ∧
      ¬ (OptRow.mk 12 (1/10)).strike < 10 :=
  c9_efficient_price_screen 5 1 2 10 (34/5) [⟨12, 1/10⟩] ⟨12, 1/10⟩
    (by with_unfolding_all decide) (by with_unfolding_all decide)
    (by with_unfolding_all decide) (by with_unfolding_all decide)
